import Mathlib

/-!
Verification of the schema-inference core of generate_schema.py.

The source manipulates dynamically typed Python values: JSON data decoded by
json.load (None, bool, int, float, str, list, dict) plus the sentinel class
MixedType that merge_nested_dicts stores for irreconcilable key conflicts.
We embed this whole dynamic universe as one inductive type PyVal; a schema
produced by infer_schema is itself such a value (None, a type-name string,
a list, or a dict), so infer_schema is modelled as PyVal → PyVal.

Python dicts are modelled as association lists in insertion order with
distinct keys: lookupA models key membership and indexing, setA models
item assignment (update in place when the key exists, append otherwise).

The recursive functions of the source rely on Python's call stack; the
embedding makes the recursion explicit with a fuel parameter and returns
none when the fuel runs out.  Totality for sufficient fuel is proved below
(claim C9), so the fuel is only a modelling device.  All definitions are
structurally recursive on the fuel and therefore compute by rfl.
-/

namespace GenerateSchema

/-- The universe of Python runtime values handled by the source: JSON values
plus the MixedType sentinel (class MixedType, line 20; structural equality is
used for it, following the spec's remark that the marker carries no state). -/
inductive PyVal : Type where
  | null
  | bool (b : Bool)
  | int (n : Int)
  | float (q : Rat)
  | str (s : String)
  | list (elems : List PyVal)
  | dict (fields : List (String × PyVal))
  | mixed

/-- Python's type(x).__name__ for each value of the embedded universe. -/
def typeName : PyVal → String
  | .null => "NoneType"
  | .bool _ => "bool"
  | .int _ => "int"
  | .float _ => "float"
  | .str _ => "str"
  | .list _ => "list"
  | .dict _ => "dict"
  | .mixed => "MixedType"

/-- isinstance(v, list) of the source (JSON data never contains tuples). -/
def PyVal.isList : PyVal → Bool
  | .list _ => true
  | _ => false

/-- isinstance(v, dict) of the source. -/
def PyVal.isDict : PyVal → Bool
  | .dict _ => true
  | _ => false

/-- d.items() for a dict value (only ever applied to dicts in the source). -/
def PyVal.fields : PyVal → List (String × PyVal)
  | .dict fs => fs
  | _ => []

/-- The element sequence of a list value (only ever applied to lists). -/
def PyVal.elems : PyVal → List PyVal
  | .list xs => xs
  | _ => []

/-- Python dict lookup / membership test on an insertion-ordered dict. -/
def lookupA {α : Type} : List (String × α) → String → Option α
  | [], _ => none
  | (k, v) :: rest, key => if k = key then some v else lookupA rest key

/-- Python dict item assignment: update in place when the key is present
(insertion order kept), append a fresh entry otherwise. -/
def setA {α : Type} : List (String × α) → String → α → List (String × α)
  | [], key, x => [(key, x)]
  | (k, v) :: rest, key, x =>
    if k = key then (k, x) :: rest else (k, v) :: setA rest key x

/-- One iteration of the inner loop of merge_nested_dicts (source lines
36-45): fold the binding key := value into the accumulated dict.  The
dict/dict branch re-runs merge_nested_dicts on the two-element list
[merged[key], value], i.e. it folds the items of both dicts, in order, into
a fresh empty dict; that is inlined here as a fold over ofs ++ vfs. -/
def mergeKey : Nat → List (String × PyVal) → String → PyVal → Option (List (String × PyVal))
  | 0, _, _, _ => none
  | fuel + 1, acc, key, value =>
    match lookupA acc key with
    | none => some (setA acc key value)
    | some old =>
      match old, value with
      | .dict ofs, .dict vfs =>
        ((ofs ++ vfs).foldlM (fun a p => mergeKey fuel a p.1 p.2) []).map
          fun m => setA acc key (.dict m)
      | .list oxs, .list vxs => some (setA acc key (.list (oxs ++ vxs)))
      | .list _, _ => some (setA acc key .mixed)
      | _, .list _ => some (setA acc key .mixed)
      | _, _ => some acc

/-- The outer loops of merge_nested_dicts, continued from an arbitrary
accumulator: for d in dict_list: for key, value in d.items(): fold. -/
def mergeDictsFrom (fuel : Nat) (acc : List (String × PyVal)) (dict_list : List PyVal) :
    Option (List (String × PyVal)) :=
  dict_list.foldlM (fun a d => d.fields.foldlM (fun a2 p => mergeKey fuel a2 p.1 p.2) a) acc

/-- merge_nested_dicts (source lines 32-46), starting from merged = {}. -/
def merge_nested_dicts (fuel : Nat) (dict_list : List PyVal) :
    Option (List (String × PyVal)) :=
  mergeDictsFrom fuel [] dict_list

/-- extract_unique_types (source lines 28-30): list(set(type(x).__name__ for
x in lst)).  A Python set has no specified order; the model fixes the order
with List.dedup, and every property that depends on the heterogeneous result
is stated up to set membership. -/
def extract_unique_types (lst : List PyVal) : List String :=
  (lst.map typeName).dedup

/-- list(chain.from_iterable(lst)) (source line 61): concatenation of the
element sequences, in order.  Only reached when every element is a list. -/
def flatten_one : List PyVal → List PyVal
  | [] => []
  | x :: rest => x.elems ++ flatten_one rest

/-- infer_schema (source lines 65-73) with the bodies of infer_list_schema
(lines 52-63) and infer_dict_schema (lines 48-50) inlined at their call
sites (the source functions only dispatch to one another; the fuel ticks
once per dispatch). -/
def infer_schema : Nat → PyVal → Option PyVal
  | 0, _ => none
  | fuel + 1, obj =>
    match obj with
    | .list lst =>
      match lst with
      | [] => some (.list [])
      | _ :: _ =>
        let types := extract_unique_types lst
        if 1 < types.length then
          some (.list (types.map PyVal.str))
        else if types.headD "" = "dict" then
          match merge_nested_dicts fuel lst with
          | none => none
          | some merged =>
            (merged.mapM fun p => (infer_schema fuel p.2).map fun s => (p.1, s)).map
              fun entries => PyVal.list [PyVal.dict entries]
        else if types.headD "" = "list" then
          (infer_schema fuel (.list (flatten_one lst))).map fun s => PyVal.list [s]
        else
          some (.list [.str (types.headD "")])
    | .dict fs =>
      (fs.mapM fun p => (infer_schema fuel p.2).map fun s => (p.1, s)).map PyVal.dict
    | .null => some PyVal.null
    | v => some (.str (typeName v))

/-- infer_dict_schema (source lines 48-50) as a named entry point:
{key: infer_schema(value) for key, value in data.items()}. -/
def infer_dict_schema (fuel : Nat) (fs : List (String × PyVal)) : Option PyVal :=
  (fs.mapM fun p => (infer_schema fuel p.2).map fun s => (p.1, s)).map PyVal.dict

mutual

def pySize : PyVal → Nat
  | .list xs => listSize xs + 1
  | .dict fs => entriesSize fs + 1
  | .null => 1
  | .bool _ => 1
  | .int _ => 1
  | .float _ => 1
  | .str _ => 1
  | .mixed => 1

def listSize : List PyVal → Nat
  | [] => 0
  | x :: rest => pySize x + listSize rest

def entriesSize : List (String × PyVal) → Nat
  | [] => 0
  | p :: rest => pySize p.2 + entriesSize rest

end

/-!
### A heap-aware embedding for the frame-effect claim

The pure model above treats Python lists as immutable values, which is
adequate for the computed schemas (a JSON tree is alias-free, so the result
only depends on the trees).  It cannot, however, express the aliasing
behaviour of merged[key].extend(value) (source line 41), which mutates a
list object of the INPUT document in place.  The heap model makes list
objects explicit heap cells: HVal.ref a is a Python list object stored at
address a of the heap, and every other value is kept structural (the source
never mutates input dicts — merged is always a fresh dict — nor scalars).
Schemas computed by the heap model are plain PyVal values, as the outputs
of infer_schema contain no list that is ever mutated afterwards.
-/

/-- Python runtime values with list objects replaced by heap references. -/
inductive HVal : Type where
  | null
  | bool (b : Bool)
  | int (n : Int)
  | float (q : Rat)
  | str (s : String)
  | ref (a : Nat)
  | dict (fields : List (String × HVal))
  | mixed

/-- The heap: cell a holds the current element sequence of list object a. -/
abbrev Heap : Type := List (List HVal)

/-- type(x).__name__ in the heap model; a reference is a list object. -/
def typeNameH : HVal → String
  | .null => "NoneType"
  | .bool _ => "bool"
  | .int _ => "int"
  | .float _ => "float"
  | .str _ => "str"
  | .ref _ => "list"
  | .dict _ => "dict"
  | .mixed => "MixedType"

/-- d.items() in the heap model. -/
def HVal.fieldsH : HVal → List (String × HVal)
  | .dict fs => fs
  | _ => []

/-- Reading a list object: the cell at the given address (Python indexing,
always in range in the source; out of range reads yield the empty cell). -/
def readCell : Heap → Nat → List HVal
  | [], _ => []
  | c :: _, 0 => c
  | _ :: hs, a + 1 => readCell hs a

/-- In-place update of one list object, leaving every other cell alone. -/
def writeCell : Heap → Nat → List HVal → Heap
  | [], _, _ => []
  | _ :: hs, 0, xs => xs :: hs
  | c :: hs, a + 1, xs => c :: writeCell hs a xs

/-- mergeKey of the heap model (source lines 36-45).  The both-lists branch
is merged[key].extend(value): it appends the elements of list object b to
list object a IN PLACE — the accumulator still holds the reference a, and
cell a (which belongs to the input document) has changed. -/
def mergeKeyH : Nat → Heap → List (String × HVal) → String → HVal →
    Option (Heap × List (String × HVal))
  | 0, _, _, _, _ => none
  | fuel + 1, h, acc, key, value =>
    match lookupA acc key with
    | none => some (h, setA acc key value)
    | some old =>
      match old, value with
      | .dict ofs, .dict vfs =>
        ((ofs ++ vfs).foldlM (fun st p => mergeKeyH fuel st.1 st.2 p.1 p.2) (h, [])).map
          fun st => (st.1, setA acc key (.dict st.2))
      | .ref a, .ref b =>
        some (writeCell h a (readCell h a ++ readCell h b), acc)
      | .ref _, _ => some (h, setA acc key .mixed)
      | _, .ref _ => some (h, setA acc key .mixed)
      | _, _ => some (h, acc)

/-- merge_nested_dicts of the heap model, threading the heap through the
two nested loops. -/
def merge_nested_dictsH (fuel : Nat) (h : Heap) (dict_list : List HVal) :
    Option (Heap × List (String × HVal)) :=
  dict_list.foldlM
    (fun st d => d.fieldsH.foldlM (fun st2 p => mergeKeyH fuel st2.1 st2.2 p.1 p.2) st)
    (h, [])

/-- list(chain.from_iterable(lst)) in the heap model: concatenate the
current contents of the referenced list objects, in order. -/
def flattenH (h : Heap) : List HVal → List HVal
  | [] => []
  | x :: rest =>
    (match x with
      | .ref a => readCell h a
      | _ => []) ++ flattenH h rest

/-- infer_schema in the heap model, returning the schema together with the
heap as it stands after the call.  The flattened list of the nested-array
branch is a fresh list object, allocated at the end of the heap. -/
def infer_schemaH : Nat → Heap → HVal → Option (PyVal × Heap)
  | 0, _, _ => none
  | fuel + 1, h, obj =>
    match obj with
    | .ref a =>
      match readCell h a with
      | [] => some (.list [], h)
      | x :: rest =>
        let lst := x :: rest
        let types := (lst.map typeNameH).dedup
        if 1 < types.length then some (.list (types.map PyVal.str), h)
        else if types.headD "" = "dict" then
          match merge_nested_dictsH fuel h lst with
          | none => none
          | some (h2, merged) =>
            (merged.foldlM
              (fun st p => (infer_schemaH fuel st.1 p.2).map
                fun r => (r.2, st.2 ++ [(p.1, r.1)]))
              (h2, ([] : List (String × PyVal)))).map
              fun st => (PyVal.list [PyVal.dict st.2], st.1)
        else if types.headD "" = "list" then
          (infer_schemaH fuel (h ++ [flattenH h lst]) (.ref h.length)).map
            fun r => (PyVal.list [r.1], r.2)
        else some (.list [.str (types.headD "")], h)
    | .dict fs =>
      (fs.foldlM
        (fun st p => (infer_schemaH fuel st.1 p.2).map
          fun r => (r.2, st.2 ++ [(p.1, r.1)]))
        (h, ([] : List (String × PyVal)))).map
        fun st => (PyVal.dict st.2, st.1)
    | .null => some (.null, h)
    | v => some (.str (typeNameH v), h)

/-- The heap evolution infer_schema can cause: no cell of the input heap is
ever rewritten except by appending elements to it (and fresh cells may be
allocated past the end). -/
def heapGrows (h h2 : Heap) : Prop :=
  h.length ≤ h2.length ∧
    ∀ a, a < h.length → ∃ t, readCell h2 a = readCell h a ++ t

/-- The heap of the in-place list-extension example: cell 0 is the list
[1] of the first sibling, cell 1 the list [2, 3] of the second, cell 2 the
top-level array holding the two sibling objects. -/
def c2Heap : Heap :=
  [[.int 1], [.int 2, .int 3], [.dict [("a", .ref 0)], .dict [("a", .ref 1)]]]

/-- The same heap after inference: cell 0 — a list of the INPUT document —
has been extended in place to [1, 2, 3]. -/
def c2HeapAfter : Heap :=
  [[.int 1, .int 2, .int 3], [.int 2, .int 3],
    [.dict [("a", .ref 0)], .dict [("a", .ref 1)]]]

def c2Schema : PyVal := .list [.dict [("a", .list [.str "int"])]]

example : infer_schema 3 (.int 3) = some (.str "int") := by rfl

example : infer_schema 3 (.list [.int 1, .str "a"]) =
    some (.list [.str "int", .str "str"]) := by rfl

example :
    infer_schema 4 (.list [.dict [("a", .int 1)], .dict [("b", .str "x")]]) =
      some (.list [.dict [("a", .str "int"), ("b", .str "str")]]) := by rfl

example :
    infer_schema 4 (.list [.dict [("a", .int 1)], .dict [("a", .str "x")]]) =
      some (.list [.dict [("a", .str "int")]]) := by rfl

example :
    infer_schema 5 (.list [.dict [("a", .list [.int 1])], .dict [("a", .list [.int 2, .int 3])]]) =
      some (.list [.dict [("a", .list [.str "int"])]]) := by rfl

example :
    infer_schema 5 (.list [.dict [("a", .list [.int 1])], .dict [("a", .int 2)]]) =
      some (.list [.dict [("a", .str "MixedType")]]) := by rfl

example : infer_schema 5 (.list [.list [.int 1, .int 2], .list [.int 3]]) =
    some (.list [.list [.str "int"]]) := by rfl

example : infer_schema 3 (.list [.null, .null]) = some (.list [.str "NoneType"]) := by rfl

example : infer_schema 3 (.list [.int 1, .null]) =
    some (.list [.str "int", .str "NoneType"]) := by rfl

/-! ### Association-list (Python dict) lemmas -/

theorem lookupA_setA_self {α : Type} (acc : List (String × α)) (k : String) (v : α) :
    lookupA (setA acc k v) k = some v := by
  induction acc with
  | nil => simp [setA, lookupA]
  | cons p rest ih =>
    by_cases h : p.1 = k
    · simp [setA, lookupA, h]
    · simp [setA, lookupA, h, ih]

theorem lookupA_setA_of_ne {α : Type} (acc : List (String × α)) (k k2 : String) (v : α)
    (h : k2 ≠ k) : lookupA (setA acc k v) k2 = lookupA acc k2 := by
  induction acc with
  | nil => simp [setA, lookupA, Ne.symm h]
  | cons p rest ih =>
    obtain ⟨k0, v0⟩ := p
    by_cases hp : k0 = k
    · subst hp
      simp [setA, lookupA, Ne.symm h]
    · simp [setA, lookupA, hp, ih]

/-- Every branch of mergeKey leaves the accumulator alone or assigns the
current key; no other key is ever touched. -/
theorem mergeKey_shape (fuel : Nat) (acc : List (String × PyVal)) (key : String)
    (value : PyVal) (acc2 : List (String × PyVal))
    (h : mergeKey fuel acc key value = some acc2) :
    acc2 = acc ∨ ∃ w, acc2 = setA acc key w := by
  cases fuel with
  | zero => simp [mergeKey] at h
  | succ f =>
    cases hl : lookupA acc key with
    | none =>
      rw [mergeKey, hl] at h
      exact Or.inr ⟨value, (Option.some.inj h).symm⟩
    | some old =>
      cases old <;> cases value <;> rw [mergeKey, hl] at h <;>
        first
        | exact Or.inl (Option.some.inj h).symm
        | exact Or.inr ⟨_, (Option.some.inj h).symm⟩
        | (rcases Option.map_eq_some'.mp h with ⟨m, hm, rfl⟩
           exact Or.inr ⟨_, rfl⟩)

/-- Once a key holds the MixedType sentinel, one more mergeKey step for any
key leaves that key at the sentinel. -/
theorem mergeKey_keeps_mixed (fuel : Nat) (acc : List (String × PyVal))
    (key k2 : String) (v2 : PyVal) (acc2 : List (String × PyVal))
    (hmix : lookupA acc key = some PyVal.mixed)
    (h : mergeKey fuel acc k2 v2 = some acc2) :
    lookupA acc2 key = some PyVal.mixed := by
  by_cases hk : key = k2
  · subst hk
    cases fuel with
    | zero => simp [mergeKey] at h
    | succ f =>
      rw [mergeKey, hmix] at h
      cases v2 <;>
        first
        | (rw [← Option.some.inj h]; exact hmix)
        | (rw [← Option.some.inj h]; exact lookupA_setA_self acc key PyVal.mixed)
  · rcases mergeKey_shape fuel acc k2 v2 acc2 h with rfl | ⟨w, rfl⟩
    · exact hmix
    · rw [lookupA_setA_of_ne _ _ _ _ hk]; exact hmix

/-- An Option-valued left fold preserves any invariant its step preserves. -/
theorem foldlM_preserve {σ α : Type} (P : σ → Prop) (f : σ → α → Option σ)
    (hf : ∀ s a s2, P s → f s a = some s2 → P s2) :
    ∀ (l : List α) (s s2 : σ), P s → l.foldlM f s = some s2 → P s2
  | [], s, s2, hs, h => by
    simp only [List.foldlM_nil] at h
    cases h; exact hs
  | a :: l, s, s2, hs, h => by
    simp only [List.foldlM_cons, Option.pure_def, Option.bind_eq_bind] at h
    cases hfa : f s a with
    | none => rw [hfa] at h; simp at h
    | some s1 =>
      rw [hfa] at h
      exact foldlM_preserve P f hf l s1 s2 (hf s a s1 hs hfa) h

/-- The MixedType sentinel survives the rest of the merge fold, whatever
later sibling objects supply. -/
theorem mergeDictsFrom_keeps_mixed (fuel : Nat) (key : String)
    (acc : List (String × PyVal)) (ds : List PyVal) (acc2 : List (String × PyVal))
    (hmix : lookupA acc key = some PyVal.mixed)
    (h : mergeDictsFrom fuel acc ds = some acc2) :
    lookupA acc2 key = some PyVal.mixed := by
  refine foldlM_preserve (fun a => lookupA a key = some PyVal.mixed) _ ?_ ds acc acc2 hmix h
  intro s d s2 hs hstep
  exact foldlM_preserve (fun a => lookupA a key = some PyVal.mixed)
    (fun a2 p => mergeKey fuel a2 p.1 p.2)
    (fun a2 p a3 ha hstep2 => mergeKey_keeps_mixed fuel a2 key p.1 p.2 a3 ha hstep2)
    d.fields s s2 hs hstep

/-- If every element of a non-empty list has the same dynamic type name,
extract_unique_types returns exactly that one name. -/
theorem extract_unique_types_single (t : String) :
    ∀ (lst : List PyVal), lst ≠ [] → (∀ x ∈ lst, typeName x = t) →
      extract_unique_types lst = [t] := by
  intro lst
  induction lst with
  | nil => intro h; exact absurd rfl h
  | cons x rest ih =>
    intro _ hall
    cases rest with
    | nil => simp [extract_unique_types, hall x (by simp)]
    | cons y rest2 =>
      have hx : typeName x = t := hall x (by simp)
      have hy : typeName y = t := hall y (by simp)
      have hmem : typeName x ∈ (y :: rest2).map typeName := by
        simp [hx, hy]
      show ((x :: y :: rest2).map typeName).dedup = [t]
      rw [List.map_cons, List.dedup_cons_of_mem hmem]
      exact ih (by simp) (fun z hz => hall z (List.mem_cons_of_mem x hz))

/-! ### A size measure on Python values, used to discharge the fuel -/

theorem pySize_pos (v : PyVal) : 1 ≤ pySize v := by
  cases v <;> simp [pySize]

theorem listSize_append (xs ys : List PyVal) :
    listSize (xs ++ ys) = listSize xs + listSize ys := by
  induction xs with
  | nil => simp [listSize]
  | cons x rest ih => simp [listSize, ih]; omega

theorem entriesSize_append (xs ys : List (String × PyVal)) :
    entriesSize (xs ++ ys) = entriesSize xs + entriesSize ys := by
  induction xs with
  | nil => simp [entriesSize]
  | cons p rest ih => simp [entriesSize, ih]; omega

theorem lookupA_size (acc : List (String × PyVal)) (k : String) (v : PyVal)
    (h : lookupA acc k = some v) : pySize v ≤ entriesSize acc := by
  induction acc with
  | nil => simp [lookupA] at h
  | cons p rest ih =>
    obtain ⟨k0, v0⟩ := p
    by_cases hp : k0 = k
    · rw [lookupA, if_pos hp] at h
      cases h
      simp [entriesSize]
    · rw [lookupA, if_neg hp] at h
      have := ih h
      simp [entriesSize]
      omega

theorem entriesSize_setA_of_lookup (acc : List (String × PyVal)) (k : String)
    (old w : PyVal) (hl : lookupA acc k = some old) :
    entriesSize (setA acc k w) + pySize old = entriesSize acc + pySize w := by
  induction acc with
  | nil => simp [lookupA] at hl
  | cons p rest ih =>
    obtain ⟨k0, v0⟩ := p
    by_cases hp : k0 = k
    · rw [lookupA, if_pos hp] at hl
      cases hl
      rw [setA, if_pos hp]
      simp [entriesSize]
      omega
    · rw [lookupA, if_neg hp] at hl
      rw [setA, if_neg hp]
      simp [entriesSize]
      have := ih hl
      omega

theorem entriesSize_setA_le (acc : List (String × PyVal)) (k : String) (w : PyVal) :
    entriesSize (setA acc k w) ≤ entriesSize acc + pySize w := by
  induction acc with
  | nil => simp [setA, entriesSize]
  | cons p rest ih =>
    obtain ⟨k0, v0⟩ := p
    by_cases hp : k0 = k
    · rw [setA, if_pos hp]
      simp [entriesSize]
      have := pySize_pos v0
      omega
    · rw [setA, if_neg hp]
      simp [entriesSize]
      omega

theorem mem_entries_size (fs : List (String × PyVal)) (p : String × PyVal)
    (h : p ∈ fs) : pySize p.2 ≤ entriesSize fs := by
  induction fs with
  | nil => simp at h
  | cons q rest ih =>
    rcases List.mem_cons.mp h with rfl | h2
    · simp [entriesSize]
    · have := ih h2
      simp [entriesSize]
      omega

theorem mem_list_size (lst : List PyVal) (x : PyVal) (h : x ∈ lst) :
    pySize x ≤ listSize lst := by
  induction lst with
  | nil => simp at h
  | cons y rest ih =>
    rcases List.mem_cons.mp h with rfl | h2
    · simp [listSize]
    · have := ih h2
      simp [listSize]
      omega

theorem fields_size (d : PyVal) : entriesSize d.fields + 1 ≤ pySize d := by
  cases d <;> simp [PyVal.fields, pySize, entriesSize]

/-! ### Key-set lemmas for the merge -/

theorem lookupA_eq_some_mem {α : Type} (acc : List (String × α)) (k : String) (v : α)
    (h : lookupA acc k = some v) : k ∈ acc.map Prod.fst := by
  induction acc with
  | nil => simp [lookupA] at h
  | cons p rest ih =>
    obtain ⟨k0, v0⟩ := p
    by_cases hp : k0 = k
    · simp [hp]
    · rw [lookupA, if_neg hp] at h
      simp [ih h]

theorem mem_keys_setA {α : Type} (acc : List (String × α)) (k : String) (v : α)
    (k2 : String) :
    k2 ∈ (setA acc k v).map Prod.fst ↔ k2 ∈ acc.map Prod.fst ∨ k2 = k := by
  induction acc with
  | nil => simp [setA]
  | cons p rest ih =>
    obtain ⟨k0, v0⟩ := p
    by_cases hp : k0 = k
    · subst hp
      simp [setA]
      tauto
    · rw [setA, if_neg hp]
      simp [ih, or_assoc]

/-- One mergeKey step makes the key set exactly the old key set plus the
folded key. -/
theorem mergeKey_keys (fuel : Nat) (acc : List (String × PyVal)) (key : String)
    (value : PyVal) (acc2 : List (String × PyVal))
    (h : mergeKey fuel acc key value = some acc2) (k2 : String) :
    k2 ∈ acc2.map Prod.fst ↔ k2 ∈ acc.map Prod.fst ∨ k2 = key := by
  cases fuel with
  | zero => simp [mergeKey] at h
  | succ f =>
    cases hl : lookupA acc key with
    | none =>
      rw [mergeKey, hl] at h
      rw [← Option.some.inj h, mem_keys_setA]
    | some old =>
      have hmem := lookupA_eq_some_mem acc key old hl
      rcases mergeKey_shape (f + 1) acc key value acc2 h with rfl | ⟨w, rfl⟩
      · constructor
        · exact Or.inl
        · rintro (h2 | rfl)
          · exact h2
          · exact hmem
      · rw [mem_keys_setA]

/-- Folding the items of one dict into the accumulator unions its keys in. -/
theorem entries_fold_keys (fuel : Nat) :
    ∀ (es : List (String × PyVal)) (start acc2 : List (String × PyVal)),
      es.foldlM (fun a p => mergeKey fuel a p.1 p.2) start = some acc2 →
      ∀ k2, k2 ∈ acc2.map Prod.fst ↔
        k2 ∈ start.map Prod.fst ∨ k2 ∈ es.map Prod.fst := by
  intro es
  induction es with
  | nil =>
    intro start acc2 h k2
    simp only [List.foldlM_nil] at h
    cases h
    simp
  | cons p rest ih =>
    intro start acc2 h k2
    simp only [List.foldlM_cons, Option.pure_def, Option.bind_eq_bind] at h
    cases hstep : mergeKey fuel start p.1 p.2 with
    | none => rw [hstep] at h; simp at h
    | some s1 =>
      rw [hstep] at h
      rw [ih s1 acc2 h k2, mergeKey_keys fuel start p.1 p.2 s1 hstep k2]
      simp [or_assoc]

/-- The merge fold over a whole dict list unions the keys of every dict in. -/
theorem mergeDictsFrom_keys (fuel : Nat) :
    ∀ (ds : List PyVal) (start acc2 : List (String × PyVal)),
      mergeDictsFrom fuel start ds = some acc2 →
      ∀ k2, k2 ∈ acc2.map Prod.fst ↔
        k2 ∈ start.map Prod.fst ∨ ∃ d ∈ ds, k2 ∈ d.fields.map Prod.fst := by
  intro ds
  induction ds with
  | nil =>
    intro start acc2 h k2
    simp only [mergeDictsFrom, List.foldlM_nil] at h
    cases h
    simp
  | cons d rest ih =>
    intro start acc2 h k2
    simp only [mergeDictsFrom, List.foldlM_cons, Option.pure_def, Option.bind_eq_bind] at h
    cases hstep : d.fields.foldlM (fun a2 p => mergeKey fuel a2 p.1 p.2) start with
    | none => rw [hstep] at h; simp at h
    | some s1 =>
      rw [hstep] at h
      rw [ih s1 acc2 h k2, entries_fold_keys fuel d.fields start s1 hstep k2]
      simp [or_assoc]

/-- The inference pass over a dict's items (the dict comprehension of
infer_dict_schema) keeps the keys, in order. -/
theorem mapM_entries_keys (fuel : Nat) :
    ∀ (fs es : List (String × PyVal)),
      (fs.mapM fun p => (infer_schema fuel p.2).map fun s => (p.1, s)) = some es →
      es.map Prod.fst = fs.map Prod.fst := by
  intro fs
  induction fs with
  | nil =>
    intro es h
    simp only [List.mapM_nil, Option.pure_def] at h
    cases h
    rfl
  | cons p rest ih =>
    intro es h
    simp only [List.mapM_cons, Option.pure_def, Option.bind_eq_bind] at h
    cases hi : infer_schema fuel p.2 with
    | none => rw [hi] at h; simp at h
    | some s =>
      rw [hi] at h
      cases hm : rest.mapM (fun p => (infer_schema fuel p.2).map fun s => (p.1, s)) with
      | none => rw [hm] at h; simp at h
      | some es2 =>
        rw [hm] at h
        simp at h
        subst h
        simp [ih es2 hm]

/-! ### Totality of the merge and of inference for sufficient fuel -/

/-- If every single mergeKey step below the size budget succeeds, so does
the fold of a dict's items, and the accumulated size stays within budget. -/
theorem merge_fold_total_of (fuel : Nat)
    (hk : ∀ acc k v, entriesSize acc + pySize v ≤ fuel →
      ∃ m, mergeKey fuel acc k v = some m ∧
        entriesSize m ≤ entriesSize acc + pySize v) :
    ∀ (es start : List (String × PyVal)),
      entriesSize start + entriesSize es ≤ fuel →
      ∃ m, es.foldlM (fun a p => mergeKey fuel a p.1 p.2) start = some m ∧
        entriesSize m ≤ entriesSize start + entriesSize es := by
  intro es
  induction es with
  | nil =>
    intro start h
    exact ⟨start, by simp [List.foldlM_nil], by simp [entriesSize]⟩
  | cons p rest ih =>
    intro start h
    simp only [entriesSize] at h
    obtain ⟨m1, hm1, hb1⟩ := hk start p.1 p.2 (by omega)
    obtain ⟨m, hm, hb⟩ := ih m1 (by omega)
    refine ⟨m, ?_, ?_⟩
    · simp only [List.foldlM_cons, Option.pure_def, Option.bind_eq_bind, hm1,
        Option.some_bind]
      exact hm
    · simp only [entriesSize]
      omega

/-- A mergeKey call whose fuel covers the accumulator plus the new value
succeeds, and the merged dict is no larger than both together. -/
theorem mergeKey_total_size :
    ∀ (fuel : Nat) (acc : List (String × PyVal)) (k : String) (v : PyVal),
      entriesSize acc + pySize v ≤ fuel →
      ∃ m, mergeKey fuel acc k v = some m ∧
        entriesSize m ≤ entriesSize acc + pySize v := by
  intro fuel
  induction fuel with
  | zero =>
    intro acc k v h
    have := pySize_pos v
    omega
  | succ fuel ih =>
    intro acc k v hcond
    cases hl : lookupA acc k with
    | none =>
      exact ⟨setA acc k v, by rw [mergeKey, hl], entriesSize_setA_le acc k v⟩
    | some old =>
      cases old <;> cases v <;> rw [mergeKey, hl] <;>
        first
        | exact ⟨acc, rfl, Nat.le_add_right _ _⟩
        | (refine ⟨setA acc k PyVal.mixed, rfl, ?_⟩
           have h1 := entriesSize_setA_le acc k PyVal.mixed
           simp only [pySize] at h1 ⊢
           omega)
        | (rename_i oxs vxs
           refine ⟨setA acc k (.list (oxs ++ vxs)), rfl, ?_⟩
           have h1 := entriesSize_setA_of_lookup acc k (.list oxs)
             (.list (oxs ++ vxs)) hl
           simp only [pySize, listSize_append] at h1 ⊢
           omega)
        | (rename_i ofs vfs
           have h1 := lookupA_size acc k (.dict ofs) hl
           simp only [pySize] at h1 hcond
           obtain ⟨m0, hm0, hb0⟩ := merge_fold_total_of fuel ih (ofs ++ vfs) []
             (by simp only [entriesSize, entriesSize_append]; omega)
           refine ⟨setA acc k (.dict m0), Option.map_eq_some'.mpr ⟨m0, hm0, rfl⟩, ?_⟩
           have h2 := entriesSize_setA_of_lookup acc k (.dict ofs) (.dict m0) hl
           simp only [pySize] at h2 ⊢
           simp only [entriesSize, entriesSize_append] at hb0
           omega)

/-- The whole merge_nested_dicts fold succeeds within the size budget. -/
theorem mergeDictsFrom_total_size (fuel : Nat) :
    ∀ (ds : List PyVal) (start : List (String × PyVal)),
      entriesSize start + listSize ds ≤ fuel →
      ∃ m, mergeDictsFrom fuel start ds = some m ∧
        entriesSize m ≤ entriesSize start + listSize ds := by
  intro ds
  induction ds with
  | nil =>
    intro start h
    exact ⟨start, by simp [mergeDictsFrom, List.foldlM_nil], by simp [listSize]⟩
  | cons d rest ih =>
    intro start h
    simp only [listSize] at h
    have hf := fields_size d
    obtain ⟨m1, hm1, hb1⟩ := merge_fold_total_of fuel (mergeKey_total_size fuel)
      d.fields start (by omega)
    obtain ⟨m, hm, hb⟩ := ih m1 (by omega)
    refine ⟨m, ?_, ?_⟩
    · simp only [mergeDictsFrom, List.foldlM_cons, Option.pure_def,
        Option.bind_eq_bind, hm1, Option.some_bind]
      exact hm
    · simp only [listSize]
      omega

theorem typeName_dict_shape (x : PyVal) (h : typeName x = "dict") :
    ∃ fs, x = .dict fs := by
  cases x <;> simp only [typeName] at h <;>
    first | exact ⟨_, rfl⟩ | exact absurd h (by decide)

theorem typeName_list_shape (x : PyVal) (h : typeName x = "list") :
    ∃ xs, x = .list xs := by
  cases x <;> simp only [typeName] at h <;>
    first | exact ⟨_, rfl⟩ | exact absurd h (by decide)

theorem mem_extract_unique_types (lst : List PyVal) (x : PyVal) (hx : x ∈ lst) :
    typeName x ∈ extract_unique_types lst := by
  simp only [extract_unique_types, List.mem_dedup]
  exact List.mem_map_of_mem typeName hx

/-- A non-empty list whose label set is not heterogeneous has exactly one
label, shared by every element. -/
theorem extract_singleton (lst : List PyVal) (hne : lst ≠ [])
    (hlen : ¬ 1 < (extract_unique_types lst).length) :
    ∃ t, extract_unique_types lst = [t] ∧ ∀ x ∈ lst, typeName x = t := by
  have h1 : extract_unique_types lst ≠ [] := fun he => hne (by
    have h2 : lst.map typeName = [] := (List.dedup_eq_nil _).mp he
    simpa using h2)
  cases e : extract_unique_types lst with
  | nil => exact absurd e h1
  | cons t rest =>
    have hr : rest = [] := by
      cases rest with
      | nil => rfl
      | cons b r2 =>
        rw [e] at hlen
        simp at hlen
    subst hr
    refine ⟨t, rfl, fun x hx => ?_⟩
    have := mem_extract_unique_types lst x hx
    rw [e] at this
    simpa using this

/-- Flattening one level of a list of lists strictly shrinks the measure. -/
theorem flatten_size (lst : List PyVal) (hall : ∀ x ∈ lst, typeName x = "list") :
    listSize (flatten_one lst) + lst.length ≤ listSize lst := by
  induction lst with
  | nil => simp [flatten_one, listSize]
  | cons x rest ih =>
    obtain ⟨ys, rfl⟩ := typeName_list_shape x (hall x (by simp))
    have h2 := ih (fun z hz => hall z (List.mem_cons_of_mem _ hz))
    simp only [flatten_one, PyVal.elems, listSize, listSize_append, pySize,
      List.length_cons]
    omega

/-- The item-by-item inference of a dict succeeds when every value does. -/
theorem mapM_entries_total (fuel : Nat) (fs : List (String × PyVal))
    (h : ∀ p ∈ fs, ∃ s, infer_schema fuel p.2 = some s) :
    ∃ es, (fs.mapM fun p => (infer_schema fuel p.2).map fun s => (p.1, s)) = some es := by
  induction fs with
  | nil => exact ⟨[], rfl⟩
  | cons p rest ih =>
    obtain ⟨s, hs⟩ := h p (by simp)
    obtain ⟨es, hes⟩ := ih (fun q hq => h q (List.mem_cons_of_mem p hq))
    refine ⟨(p.1, s) :: es, ?_⟩
    rw [List.mapM_cons, hs, hes]
    rfl

/-- Inference succeeds on every value once the fuel covers its size. -/
theorem infer_total :
    ∀ (fuel : Nat) (v : PyVal), pySize v ≤ fuel →
      ∃ r, infer_schema fuel v = some r := by
  intro fuel
  induction fuel with
  | zero =>
    intro v h
    have := pySize_pos v
    omega
  | succ fuel ih =>
    intro v h
    cases v with
    | null => exact ⟨_, rfl⟩
    | bool b => exact ⟨_, rfl⟩
    | int n => exact ⟨_, rfl⟩
    | float q => exact ⟨_, rfl⟩
    | str s => exact ⟨_, rfl⟩
    | mixed => exact ⟨_, rfl⟩
    | dict fs =>
      simp only [pySize] at h
      obtain ⟨es, hes⟩ := mapM_entries_total fuel fs (fun p hp => ih p.2 (by
        have := mem_entries_size fs p hp
        omega))
      exact ⟨.dict es, Option.map_eq_some'.mpr ⟨es, hes, rfl⟩⟩
    | list lst =>
      cases lst with
      | nil => exact ⟨.list [], rfl⟩
      | cons a l =>
        simp only [pySize, listSize] at h
        by_cases h2 : 1 < (extract_unique_types (a :: l)).length
        · refine ⟨.list ((extract_unique_types (a :: l)).map PyVal.str), ?_⟩
          rw [infer_schema]
          simp only [if_pos h2]
        · obtain ⟨t, ht, hmem⟩ := extract_singleton (a :: l) (by simp) h2
          by_cases hd : t = "dict"
          · subst hd
            obtain ⟨merged, hmg, hbm⟩ := mergeDictsFrom_total_size fuel (a :: l) []
              (by simp only [entriesSize, listSize]; omega)
            simp only [entriesSize, listSize] at hbm
            obtain ⟨es, hes⟩ := mapM_entries_total fuel merged (fun p hp => ih p.2 (by
              have h3 := mem_entries_size merged p hp
              omega))
            refine ⟨.list [.dict es], ?_⟩
            rw [infer_schema, ht,
              show merge_nested_dicts fuel (a :: l) = some merged from hmg]
            exact Option.map_eq_some'.mpr ⟨es, hes, rfl⟩
          · by_cases hli : t = "list"
            · subst hli
              have hfs := flatten_size (a :: l) hmem
              simp only [listSize, List.length_cons] at hfs
              obtain ⟨r0, hr0⟩ := ih (.list (flatten_one (a :: l))) (by
                simp only [pySize]
                omega)
              refine ⟨.list [r0], ?_⟩
              rw [infer_schema, ht]
              exact Option.map_eq_some'.mpr ⟨r0, hr0, rfl⟩
            · refine ⟨.list [.str t], ?_⟩
              rw [infer_schema, ht]
              have e1 : ¬ (1 < ([t] : List String).length) := by simp
              have e2 : ¬ (([t] : List String).headD "" = "dict") := by simpa using hd
              have e3 : ¬ (([t] : List String).headD "" = "list") := by simpa using hli
              rw [if_neg e1, if_neg e2, if_neg e3]
              exact rfl

/-! ### Claim theorems: the merge conflict policy -/

/-- C1 counterexample: merging [{"a": 1}, {"a": "x"}] leaves the FIRST value
1 under key "a" (the source's inner if/elif chain has no overwrite branch),
not the last-observed "x" as the claim states; the inferred schema labels
the key "int". -/
theorem claim_C1_counterexample :
    merge_nested_dicts 3 [PyVal.dict [("a", .int 1)], PyVal.dict [("a", .str "x")]] =
        some [("a", PyVal.int 1)] ∧
    infer_schema 4 (.list [.dict [("a", .int 1)], .dict [("a", .str "x")]]) =
        some (.list [.dict [("a", .str "int")]]) ∧
    (PyVal.int 1 : PyVal) ≠ PyVal.str "x" :=
  ⟨rfl, rfl, fun h => PyVal.noConfusion h⟩

/-- C1 amended: when a key is present and the existing and new values are
neither both dicts, nor both lists, nor exactly one a list, the step keeps
the accumulator unchanged — the EXISTING value wins (first-write-wins), and
merging [{"a": 1}, {"a": "x"}] leaves 1 (labelled "int") under "a". -/
theorem claim_C1_first_write_wins (fuel : Nat) (acc : List (String × PyVal))
    (key : String) (old value : PyVal) (hlook : lookupA acc key = some old)
    (hol : old.isList = false) (hvl : value.isList = false)
    (hnd : ¬(old.isDict = true ∧ value.isDict = true)) :
    mergeKey (fuel + 1) acc key value = some acc ∧
    infer_schema 4 (.list [.dict [("a", .int 1)], .dict [("a", .str "x")]]) =
      some (.list [.dict [("a", .str "int")]]) := by
  refine ⟨?_, rfl⟩
  cases old <;> cases value <;> simp_all [mergeKey, PyVal.isList, PyVal.isDict]

theorem claim_C1_witness :
    mergeKey 1 [("a", PyVal.int 1)] "a" (PyVal.str "x") = some [("a", PyVal.int 1)] ∧
    infer_schema 4 (.list [.dict [("a", .int 1)], .dict [("a", .str "x")]]) =
      some (.list [.dict [("a", .str "int")]]) :=
  claim_C1_first_write_wins 0 [("a", PyVal.int 1)] "a" (PyVal.int 1) (PyVal.str "x")
    rfl rfl rfl (by simp [PyVal.isDict])

/-- C3: a sequence / non-sequence conflict on a present key replaces the
entry with the MixedType sentinel; the sentinel then survives the entire
rest of the merge fold, whatever later siblings supply for that key; and
infer([{"a": [1]}, {"a": 2}]) is the single-element array schema wrapping
the object schema mapping "a" to the MixedType marker (which infer_schema
renders as the kind label "MixedType"). -/
theorem claim_C3 (fuel : Nat) (acc : List (String × PyVal)) (key : String)
    (old value : PyVal) (hlook : lookupA acc key = some old)
    (hx : old.isList ≠ value.isList) :
    mergeKey (fuel + 1) acc key value = some (setA acc key PyVal.mixed) ∧
    (∀ (fuel2 : Nat) (ds : List PyVal) (acc2 : List (String × PyVal)),
      mergeDictsFrom fuel2 (setA acc key PyVal.mixed) ds = some acc2 →
        lookupA acc2 key = some PyVal.mixed) ∧
    infer_schema 5 (.list [.dict [("a", .list [.int 1])], .dict [("a", .int 2)]]) =
      some (.list [.dict [("a", .str "MixedType")]]) := by
  refine ⟨?_, ?_, rfl⟩
  · cases old <;> cases value <;> simp_all [mergeKey, PyVal.isList]
  · intro fuel2 ds acc2 h
    exact mergeDictsFrom_keeps_mixed fuel2 key _ ds acc2 (lookupA_setA_self acc key _) h

theorem claim_C3_witness :
    mergeKey 1 [("a", PyVal.list [.int 1])] "a" (PyVal.int 2) =
        some [("a", PyVal.mixed)] ∧
    (∀ (fuel2 : Nat) (ds : List PyVal) (acc2 : List (String × PyVal)),
      mergeDictsFrom fuel2 (setA [("a", PyVal.list [.int 1])] "a" PyVal.mixed) ds =
          some acc2 → lookupA acc2 "a" = some PyVal.mixed) ∧
    infer_schema 5 (.list [.dict [("a", .list [.int 1])], .dict [("a", .int 2)]]) =
      some (.list [.dict [("a", .str "MixedType")]]) :=
  claim_C3 0 [("a", PyVal.list [.int 1])] "a" (PyVal.list [.int 1]) (PyVal.int 2)
    rfl (by simp [PyVal.isList])

/-- C7: when a present key holds a list and the new value is also a list,
the merged entry is their concatenation, existing elements first; the two
sibling lists of the example are unified to [1, 2, 3] before inference, so
the wrapped object schema maps "a" to the homogeneous array schema
[ScalarKind "int"]. -/
theorem claim_C7 (fuel : Nat) (acc : List (String × PyVal)) (key : String)
    (oxs vxs : List PyVal) (hlook : lookupA acc key = some (.list oxs)) :
    mergeKey (fuel + 1) acc key (.list vxs) =
        some (setA acc key (.list (oxs ++ vxs))) ∧
    merge_nested_dicts 2
        [PyVal.dict [("a", .list [.int 1])], .dict [("a", .list [.int 2, .int 3])]] =
      some [("a", PyVal.list [.int 1, .int 2, .int 3])] ∧
    infer_schema 5
        (.list [.dict [("a", .list [.int 1])], .dict [("a", .list [.int 2, .int 3])]]) =
      some (.list [.dict [("a", .list [.str "int"])]]) := by
  refine ⟨?_, rfl, rfl⟩
  simp [mergeKey, hlook]

theorem claim_C7_witness :
    mergeKey 1 [("a", PyVal.list [.int 1])] "a" (PyVal.list [.int 2, .int 3]) =
        some [("a", PyVal.list [.int 1, .int 2, .int 3])] ∧
    merge_nested_dicts 2
        [PyVal.dict [("a", .list [.int 1])], .dict [("a", .list [.int 2, .int 3])]] =
      some [("a", PyVal.list [.int 1, .int 2, .int 3])] ∧
    infer_schema 5
        (.list [.dict [("a", .list [.int 1])], .dict [("a", .list [.int 2, .int 3])]]) =
      some (.list [.dict [("a", .list [.str "int"])]]) :=
  claim_C7 0 [("a", PyVal.list [.int 1])] "a" [.int 1] [.int 2, .int 3] rfl

/-! ### Claim theorems: the array resolver and scalar labelling -/

/-- C4: for a non-empty array of sibling objects, the inferred result is a
single-element array schema wrapping one object schema whose key set is
exactly the union of the keys of all the siblings; a key present in only
one sibling still appears, as in infer([{"a": 1}, {"b": "x"}]). -/
theorem claim_C4 (fuel : Nat) (ds : List PyVal) (r : PyVal) (hne : ds ≠ [])
    (hall : ∀ d ∈ ds, typeName d = "dict")
    (h : infer_schema fuel (.list ds) = some r) :
    (∃ es : List (String × PyVal), r = .list [.dict es] ∧
      ∀ k, k ∈ es.map Prod.fst ↔ ∃ d ∈ ds, k ∈ d.fields.map Prod.fst) ∧
    infer_schema 4 (.list [.dict [("a", .int 1)], .dict [("b", .str "x")]]) =
      some (.list [.dict [("a", .str "int"), ("b", .str "str")]]) := by
  refine ⟨?_, rfl⟩
  cases fuel with
  | zero => rw [infer_schema] at h; exact absurd h (by simp)
  | succ g =>
    cases ds with
    | nil => exact absurd rfl hne
    | cons d ds2 =>
      rw [infer_schema, extract_unique_types_single "dict" (d :: ds2) hne hall] at h
      have h2 :
          (match merge_nested_dicts g (d :: ds2) with
            | none => none
            | some merged =>
              (merged.mapM fun p => (infer_schema g p.2).map fun s => (p.1, s)).map
                fun entries => PyVal.list [PyVal.dict entries]) = some r := h
      cases hm : merge_nested_dicts g (d :: ds2) with
      | none => rw [hm] at h2; exact absurd h2 (by simp)
      | some merged =>
        rw [hm] at h2
        rcases Option.map_eq_some'.mp h2 with ⟨es, hes, rfl⟩
        refine ⟨es, rfl, fun k => ?_⟩
        rw [show es.map Prod.fst = merged.map Prod.fst from
          mapM_entries_keys g merged es hes]
        have := mergeDictsFrom_keys g (d :: ds2) [] merged hm k
        simpa using this

theorem claim_C4_witness :
    (∃ es : List (String × PyVal),
      PyVal.list [.dict [("a", .str "int"), ("b", .str "str")]] = .list [.dict es] ∧
      ∀ k, k ∈ es.map Prod.fst ↔
        ∃ d ∈ [PyVal.dict [("a", PyVal.int 1)], PyVal.dict [("b", PyVal.str "x")]],
          k ∈ d.fields.map Prod.fst) ∧
    infer_schema 4 (.list [.dict [("a", .int 1)], .dict [("b", .str "x")]]) =
      some (.list [.dict [("a", .str "int"), ("b", .str "str")]]) :=
  claim_C4 4 [PyVal.dict [("a", PyVal.int 1)], PyVal.dict [("b", PyVal.str "x")]]
    (PyVal.list [.dict [("a", .str "int"), ("b", .str "str")]])
    (by simp) (by decide) rfl

/-- C5: as soon as the elements of a non-empty array span at least two
distinct dynamic-type labels, infer_schema returns exactly the deduplicated
label set (as kind-name strings) and recurses into nothing; the label list
is the set of labels occurring in the array, and for [1, "a"] that set is
exactly {"int", "str"}. -/
theorem claim_C5 (fuel : Nat) (lst : List PyVal)
    (h2 : 1 < (extract_unique_types lst).length) :
    infer_schema (fuel + 1) (.list lst) =
      some (.list ((extract_unique_types lst).map PyVal.str)) ∧
    (∀ s, s ∈ extract_unique_types lst ↔ ∃ x ∈ lst, typeName x = s) ∧
    infer_schema 2 (.list [.int 1, .str "a"]) =
      some (.list [.str "int", .str "str"]) ∧
    (∀ s, s ∈ extract_unique_types [PyVal.int 1, .str "a"] ↔ s = "int" ∨ s = "str") := by
  refine ⟨?_, ?_, rfl, ?_⟩
  · cases lst with
    | nil => simp [extract_unique_types] at h2
    | cons a l =>
      rw [infer_schema]
      simp only [if_pos h2]
  · intro s
    simp [extract_unique_types, List.mem_dedup, List.mem_map]
  · intro s
    show s ∈ ["int", "str"] ↔ s = "int" ∨ s = "str"
    simp

theorem claim_C5_witness :
    infer_schema 2 (.list [PyVal.int 1, .str "a"]) =
      some (.list ((extract_unique_types [PyVal.int 1, .str "a"]).map PyVal.str)) ∧
    (∀ s, s ∈ extract_unique_types [PyVal.int 1, .str "a"] ↔
      ∃ x ∈ [PyVal.int 1, PyVal.str "a"], typeName x = s) ∧
    infer_schema 2 (.list [.int 1, .str "a"]) =
      some (.list [.str "int", .str "str"]) ∧
    (∀ s, s ∈ extract_unique_types [PyVal.int 1, .str "a"] ↔ s = "int" ∨ s = "str") :=
  claim_C5 1 [PyVal.int 1, PyVal.str "a"] (by decide)

/-- C6: for a non-empty array whose elements are all arrays, infer_schema
flattens exactly one level (the in-order concatenation of the inner
sequences), resolves the flattened sequence, and wraps the result as a
single-element array schema; infer([[1,2],[3]]) gives [[ScalarKind "int"]]. -/
theorem claim_C6 (fuel : Nat) (lst : List PyVal) (hne : lst ≠ [])
    (hall : ∀ x ∈ lst, typeName x = "list") :
    infer_schema (fuel + 1) (.list lst) =
      (infer_schema fuel (.list (flatten_one lst))).map (fun s => PyVal.list [s]) ∧
    (∀ xss : List (List PyVal),
      flatten_one (xss.map PyVal.list) = xss.foldr (· ++ ·) []) ∧
    infer_schema 5 (.list [.list [.int 1, .int 2], .list [.int 3]]) =
      some (.list [.list [.str "int"]]) := by
  refine ⟨?_, ?_, rfl⟩
  · cases lst with
    | nil => exact absurd rfl hne
    | cons a l =>
      rw [infer_schema]
      rw [extract_unique_types_single "list" (a :: l) hne hall]
      simp
  · intro xss
    induction xss with
    | nil => rfl
    | cons xs rest ih => simp [flatten_one, PyVal.elems, ih]

theorem claim_C6_witness :
    infer_schema 5 (.list [PyVal.list [.int 1, .int 2], PyVal.list [.int 3]]) =
      (infer_schema 4
        (.list (flatten_one [PyVal.list [.int 1, .int 2], PyVal.list [.int 3]]))).map
        (fun s => PyVal.list [s]) ∧
    (∀ xss : List (List PyVal),
      flatten_one (xss.map PyVal.list) = xss.foldr (· ++ ·) []) ∧
    infer_schema 5 (.list [.list [.int 1, .int 2], .list [.int 3]]) =
      some (.list [.list [.str "int"]]) :=
  claim_C6 4 [PyVal.list [.int 1, .int 2], PyVal.list [.int 3]] (by simp) (by decide)

/-- C8: scalars are labelled by their dynamic type, with integer-valued and
float-valued numbers distinguished, and None maps to the null marker. -/
theorem claim_C8 (fuel : Nat) (b : Bool) (n : Int) (q : Rat) (s : String) :
    infer_schema (fuel + 1) (.bool b) = some (.str "bool") ∧
    infer_schema (fuel + 1) (.int n) = some (.str "int") ∧
    infer_schema (fuel + 1) (.float q) = some (.str "float") ∧
    infer_schema (fuel + 1) (.str s) = some (.str "str") ∧
    infer_schema (fuel + 1) PyVal.null = some PyVal.null ∧
    infer_schema 1 (.bool true) = some (.str "bool") ∧
    infer_schema 1 (.int 3) = some (.str "int") ∧
    infer_schema 1 (.float (7 / 2 : Rat)) = some (.str "float") ∧
    infer_schema 1 (.str "x") = some (.str "str") :=
  ⟨rfl, rfl, rfl, rfl, rfl, rfl, rfl, rfl, rfl⟩

/-- C9: inference is total — for every value of the embedded Python universe
(in particular every finite JSON tree of nulls, booleans, numbers, strings,
arrays and objects), once the fuel modelling the call stack covers the size
of the value, infer_schema (and through it the array resolver and the merge)
returns a schema value rather than failing. -/
theorem claim_C9 (v : PyVal) :
    ∃ fuel0, ∀ fuel, fuel0 ≤ fuel → ∃ r, infer_schema fuel v = some r :=
  ⟨pySize v, fun fuel hf => infer_total fuel v hf⟩

theorem claim_C9_witness :
    ∃ fuel0, ∀ fuel, fuel0 ≤ fuel →
      ∃ r, infer_schema fuel
        (PyVal.list [.dict [("a", .list [.int 1])], .dict [("a", .int 2)]]) = some r :=
  claim_C9 (PyVal.list [.dict [("a", .list [.int 1])], .dict [("a", .int 2)]])

/-- C10: None inside an array contributes the dynamic-type label "NoneType"
like any scalar: an all-null array yields the single-element array schema
["NoneType"], and [1, null] yields the heterogeneous label set containing
"NoneType". -/
theorem claim_C10 (fuel : Nat) (lst : List PyVal) (hne : lst ≠ [])
    (hall : ∀ x ∈ lst, x = PyVal.null) :
    infer_schema (fuel + 1) (.list lst) = some (.list [.str "NoneType"]) ∧
    infer_schema 2 (.list [.int 1, .null]) =
      some (.list [.str "int", .str "NoneType"]) ∧
    "NoneType" ∈ extract_unique_types [PyVal.int 1, PyVal.null] := by
  refine ⟨?_, rfl, by decide⟩
  cases lst with
  | nil => exact absurd rfl hne
  | cons a l =>
    rw [infer_schema]
    rw [extract_unique_types_single "NoneType" (a :: l) hne
      (fun x hx => by rw [hall x hx]; rfl)]
    simp

/-! ### Heap lemmas and the frame-effect claim -/

theorem heapGrows_refl (h : Heap) : heapGrows h h :=
  ⟨le_refl _, fun _ _ => ⟨[], (List.append_nil _).symm⟩⟩

theorem heapGrows_trans (h1 h2 h3 : Heap) (g1 : heapGrows h1 h2)
    (g2 : heapGrows h2 h3) : heapGrows h1 h3 := by
  obtain ⟨l1, c1⟩ := g1
  obtain ⟨l2, c2⟩ := g2
  refine ⟨le_trans l1 l2, fun a ha => ?_⟩
  obtain ⟨t1, ht1⟩ := c1 a ha
  obtain ⟨t2, ht2⟩ := c2 a (lt_of_lt_of_le ha l1)
  exact ⟨t1 ++ t2, by rw [ht2, ht1, List.append_assoc]⟩

theorem length_writeCell (h : Heap) (a : Nat) (xs : List HVal) :
    (writeCell h a xs).length = h.length := by
  induction h generalizing a with
  | nil => rfl
  | cons c hs ih =>
    cases a with
    | zero => rfl
    | succ a2 => simp [writeCell, ih]

theorem readCell_writeCell_self (h : Heap) (a : Nat) (xs : List HVal)
    (ha : a < h.length) : readCell (writeCell h a xs) a = xs := by
  induction h generalizing a with
  | nil => simp at ha
  | cons c hs ih =>
    cases a with
    | zero => rfl
    | succ a2 => exact ih a2 (by simpa using ha)

theorem readCell_writeCell_ne (h : Heap) (a b : Nat) (xs : List HVal)
    (hab : a ≠ b) : readCell (writeCell h a xs) b = readCell h b := by
  induction h generalizing a b with
  | nil => cases a <;> rfl
  | cons c hs ih =>
    cases a with
    | zero =>
      cases b with
      | zero => exact absurd rfl hab
      | succ b2 => rfl
    | succ a2 =>
      cases b with
      | zero => rfl
      | succ b2 => exact ih a2 b2 (fun e => hab (by rw [e]))

theorem writeCell_oob (h : Heap) (a : Nat) (xs : List HVal)
    (ha : h.length ≤ a) : writeCell h a xs = h := by
  induction h generalizing a with
  | nil => rfl
  | cons c hs ih =>
    cases a with
    | zero => simp at ha
    | succ a2 => simp [writeCell, ih a2 (by simpa using ha)]

/-- Extending one list object in place only ever appends to that cell. -/
theorem heapGrows_extend (h : Heap) (a : Nat) (ys : List HVal) :
    heapGrows h (writeCell h a (readCell h a ++ ys)) := by
  by_cases ha : a < h.length
  · refine ⟨by rw [length_writeCell], fun b hb => ?_⟩
    by_cases hab : a = b
    · subst hab
      exact ⟨ys, readCell_writeCell_self h a _ ha⟩
    · exact ⟨[], by rw [readCell_writeCell_ne h a b _ hab, List.append_nil]⟩
  · rw [writeCell_oob h a _ (by omega)]
    exact heapGrows_refl h

theorem readCell_append_left (h : Heap) (c : List HVal) (a : Nat)
    (ha : a < h.length) : readCell (h ++ [c]) a = readCell h a := by
  induction h generalizing a with
  | nil => simp at ha
  | cons c0 hs ih =>
    cases a with
    | zero => rfl
    | succ a2 => exact ih a2 (by simpa using ha)

/-- Allocating a fresh list object leaves every existing cell unchanged. -/
theorem heapGrows_alloc (h : Heap) (c : List HVal) : heapGrows h (h ++ [c]) := by
  refine ⟨by simp, fun a ha => ⟨[], ?_⟩⟩
  rw [readCell_append_left h c a ha, List.append_nil]

/-- An Option-valued left fold composes any reflexive transitive relation
its step respects. -/
theorem foldlM_rel {σ α : Type} (R : σ → σ → Prop) (f : σ → α → Option σ)
    (hrefl : ∀ s, R s s) (htrans : ∀ s1 s2 s3, R s1 s2 → R s2 s3 → R s1 s3)
    (hf : ∀ s x s2, f s x = some s2 → R s s2) :
    ∀ (l : List α) (s s2 : σ), l.foldlM f s = some s2 → R s s2
  | [], s, s2, hfold => by
    simp only [List.foldlM_nil] at hfold
    cases hfold
    exact hrefl s
  | x :: l, s, s2, hfold => by
    simp only [List.foldlM_cons, Option.pure_def, Option.bind_eq_bind] at hfold
    cases hstep : f s x with
    | none => rw [hstep] at hfold; simp at hfold
    | some s1 =>
      rw [hstep] at hfold
      exact htrans s s1 s2 (hf s x s1 hstep)
        (foldlM_rel R f hrefl htrans hf l s1 s2 hfold)

/-- One mergeKey step never rewrites an input cell other than by the
in-place list extension, which appends. -/
theorem mergeKeyH_grows :
    ∀ (fuel : Nat) (h : Heap) (acc : List (String × HVal)) (key : String)
      (value : HVal) (res : Heap × List (String × HVal)),
      mergeKeyH fuel h acc key value = some res → heapGrows h res.1 := by
  intro fuel
  induction fuel with
  | zero =>
    intro h acc key value res hres
    simp [mergeKeyH] at hres
  | succ fuel ih =>
    intro h acc key value res hres
    cases hl : lookupA acc key with
    | none =>
      rw [mergeKeyH, hl] at hres
      rw [← Option.some.inj hres]
      exact heapGrows_refl h
    | some old =>
      cases old <;> cases value <;> rw [mergeKeyH, hl] at hres <;>
        first
        | (rw [← Option.some.inj hres]; exact heapGrows_refl h)
        | (rw [← Option.some.inj hres]; exact heapGrows_extend h _ _)
        | (rcases Option.map_eq_some'.mp hres with ⟨st, hst, rfl⟩
           exact foldlM_rel (fun s1 s2 => heapGrows s1.1 s2.1) _
             (fun s => heapGrows_refl s.1)
             (fun s1 s2 s3 g1 g2 => heapGrows_trans s1.1 s2.1 s3.1 g1 g2)
             (fun s x s2 hs => ih s.1 s.2 x.1 x.2 s2 hs) _ (h, []) st hst)

theorem merge_nested_dictsH_grows (fuel : Nat) (h : Heap) (ds : List HVal)
    (res : Heap × List (String × HVal))
    (hres : merge_nested_dictsH fuel h ds = some res) : heapGrows h res.1 := by
  refine foldlM_rel (fun s1 s2 => heapGrows s1.1 s2.1) _
    (fun s => heapGrows_refl s.1)
    (fun s1 s2 s3 g1 g2 => heapGrows_trans s1.1 s2.1 s3.1 g1 g2)
    (fun s d s2 hs => ?_) ds (h, []) res hres
  exact foldlM_rel (fun s1 s2 => heapGrows s1.1 s2.1) _
    (fun s0 => heapGrows_refl s0.1)
    (fun s1 s2 s3 g1 g2 => heapGrows_trans s1.1 s2.1 s3.1 g1 g2)
    (fun s1 x s3 hx => mergeKeyH_grows fuel s1.1 s1.2 x.1 x.2 s3 hx)
    d.fieldsH s s2 hs

/-- Inference only ever appends to existing list objects of the input heap
(via the merge's in-place extension) or allocates fresh ones. -/
theorem infer_schemaH_grows :
    ∀ (fuel : Nat) (h : Heap) (v : HVal) (res : PyVal × Heap),
      infer_schemaH fuel h v = some res → heapGrows h res.2 := by
  intro fuel
  induction fuel with
  | zero =>
    intro h v res hres
    simp [infer_schemaH] at hres
  | succ fuel ih =>
    intro h v res hres
    have entriesGrow :
        ∀ (es : List (String × HVal)) (st0 st1 : Heap × List (String × PyVal)),
          es.foldlM (fun st p => (infer_schemaH fuel st.1 p.2).map
            fun r => (r.2, st.2 ++ [(p.1, r.1)])) st0 = some st1 →
          heapGrows st0.1 st1.1 := by
      intro es st0 st1 hfold
      refine foldlM_rel (fun s1 s2 => heapGrows s1.1 s2.1) _
        (fun s => heapGrows_refl s.1)
        (fun s1 s2 s3 g1 g2 => heapGrows_trans s1.1 s2.1 s3.1 g1 g2)
        (fun s p s2 hs => ?_) es st0 st1 hfold
      rcases Option.map_eq_some'.mp hs with ⟨r, hr, rfl⟩
      exact ih s.1 p.2 r hr
    cases v with
    | null =>
      rw [infer_schemaH] at hres
      rw [← Option.some.inj hres]
      exact heapGrows_refl h
    | bool b =>
      rw [← Option.some.inj hres]
      exact heapGrows_refl h
    | int n =>
      rw [← Option.some.inj hres]
      exact heapGrows_refl h
    | float q =>
      rw [← Option.some.inj hres]
      exact heapGrows_refl h
    | str s =>
      rw [← Option.some.inj hres]
      exact heapGrows_refl h
    | mixed =>
      rw [← Option.some.inj hres]
      exact heapGrows_refl h
    | dict fs =>
      rw [infer_schemaH] at hres
      rcases Option.map_eq_some'.mp hres with ⟨st, hst, rfl⟩
      exact entriesGrow fs (h, []) st hst
    | ref a =>
      rw [infer_schemaH] at hres
      split at hres
      · rw [← Option.some.inj hres]
        exact heapGrows_refl h
      · dsimp only [] at hres
        split at hres
        · rw [← Option.some.inj hres]
          exact heapGrows_refl h
        · split at hres
          · split at hres
            · exact absurd hres (by simp)
            · rename_i h2m merged hm
              rcases Option.map_eq_some'.mp hres with ⟨st, hst, rfl⟩
              exact heapGrows_trans _ _ _
                (merge_nested_dictsH_grows fuel h _ (h2m, merged) hm)
                (entriesGrow merged (h2m, []) st hst)
          · split at hres
            · rcases Option.map_eq_some'.mp hres with ⟨r, hr, rfl⟩
              exact heapGrows_trans _ _ _ (heapGrows_alloc h _) (ih _ _ r hr)
            · rw [← Option.some.inj hres]
              exact heapGrows_refl h

/-- C2 counterexample: inferring the schema of the document
[{"a": [1]}, {"a": [2, 3]}] (cell 2 of c2Heap) CHANGES the input — the list
object [1] at cell 0, part of the first sibling object of the input
document, is extended in place by merged["a"].extend(value). -/
theorem claim_C2_counterexample :
    infer_schemaH 6 c2Heap (.ref 2) = some (c2Schema, c2HeapAfter) ∧
    readCell c2HeapAfter 0 ≠ readCell c2Heap 0 :=
  ⟨rfl, fun he => absurd (congrArg List.length he) (by decide)⟩

/-- C2 amended: the input is NOT always left unchanged — when two sibling
objects hold list values under the same key, the earlier list object is
extended in place by the later one's elements, as the concrete run shows.
What does hold is append-only growth: no cell of the input heap is ever
rewritten except by appending to it, and scalars and objects are never
modified. -/
theorem claim_C2_append_only (fuel : Nat) (h : Heap) (v : HVal)
    (res : PyVal × Heap) (hres : infer_schemaH fuel h v = some res) :
    heapGrows h res.2 ∧
    infer_schemaH 6 c2Heap (.ref 2) = some (c2Schema, c2HeapAfter) ∧
    readCell c2HeapAfter 0 = readCell c2Heap 0 ++ [.int 2, .int 3] :=
  ⟨infer_schemaH_grows fuel h v res hres, rfl, rfl⟩

theorem claim_C2_witness :
    heapGrows c2Heap c2HeapAfter ∧
    infer_schemaH 6 c2Heap (.ref 2) = some (c2Schema, c2HeapAfter) ∧
    readCell c2HeapAfter 0 = readCell c2Heap 0 ++ [.int 2, .int 3] :=
  claim_C2_append_only 6 c2Heap (.ref 2) (c2Schema, c2HeapAfter) rfl

theorem claim_C10_witness :
    infer_schema 2 (.list [PyVal.null, PyVal.null]) = some (.list [.str "NoneType"]) ∧
    infer_schema 2 (.list [.int 1, .null]) =
      some (.list [.str "int", .str "NoneType"]) ∧
    "NoneType" ∈ extract_unique_types [PyVal.int 1, PyVal.null] :=
  claim_C10 1 [PyVal.null, PyVal.null] (by simp)
    (by intro x hx; rcases List.mem_cons.mp hx with rfl | hx2; · rfl
        rcases List.mem_cons.mp hx2 with rfl | hx3; · rfl
        exact absurd hx3 (List.not_mem_nil x))

end GenerateSchema
